import Mathlib

/-!
Shallow embedding of the delivery-trends dashboard core (src/app.py).

The script loads a weekly interest table `df` with one column per brand
(Swiggy, Zomato, Blinkit) and a per-state table `geo_df` (lines 103-119,
with a dummy-data fallback on fetch failure), smooths the brand columns with
`rolling(window).mean()` (lines 167-169), sorts the regional table with
`sort_values` (line 189) and computes the Pearson correlation matrix with
`df[[brands]].corr()` (line 246).

Missing cells (NaN) are modelled as `none`; present values are exact
rationals.  `rolling(window).mean()` with the pandas default
`min_periods = window` yields the mean of the trailing window of `window`
rows when all of them are present, and NaN otherwise.  `DataFrame.corr`
computes, per pair of columns over the pairwise-complete rows, the quantity
`covxy / sqrt(ssqdmx * ssqdmy)` of centered sums, and NaN when the divisor
is zero (pandas `nancorr`); each pair is computed once and mirrored.
-/

namespace DeliveryTrends

/-- A table cell: a search-interest value, or missing (NaN). -/
abbrev Value := Option ℚ

/-- The fixed brand set of the dashboard, `kw_list = ["Swiggy", "Zomato", "Blinkit"]`. -/
inductive Brand where
  | Swiggy
  | Zomato
  | Blinkit
  deriving DecidableEq

/-- The interest-over-time table `df`: a date axis and one value column per brand. -/
structure TrendsFrame where
  date : List ℕ
  swiggy : List Value
  zomato : List Value
  blinkit : List Value
  deriving DecidableEq

/-- Column selection `df[brand]`. -/
def TrendsFrame.col (df : TrendsFrame) : Brand → List Value
  | Brand.Swiggy => df.swiggy
  | Brand.Zomato => df.zomato
  | Brand.Blinkit => df.blinkit

/-- The trailing window of `rolling(window)` at row `i`: rows `max 0 (i+1-w)` to `i`. -/
def windowAt (w : ℕ) (xs : List Value) (i : ℕ) : List Value :=
  (xs.take (i + 1)).drop (i + 1 - w)

/-- The present (non-NaN) values of a window. -/
def validVals (win : List Value) : List ℚ :=
  win.filterMap id

/-- `Series.rolling(window).mean()` with the pandas default
`min_periods = window`: row `i` holds the mean of the trailing window of
`window` rows when that many values are present there, and NaN otherwise. -/
def rollingMean (w : ℕ) (xs : List Value) : List Value :=
  (List.range xs.length).map fun i =>
    let vals := validVals (windowAt w xs i)
    if vals.length = w then some (vals.sum / (w : ℚ)) else none

/-- `df.copy()` (line 168): a fresh frame with the same contents. -/
def copyFrame (df : TrendsFrame) : TrendsFrame :=
  ⟨df.date, df.swiggy, df.zomato, df.blinkit⟩

/-- Lines 168-169: `df_smooth = df.copy()` followed by assigning the rolling
means of the three brand columns of `df_smooth`; the date column is kept. -/
def df_smooth (window : ℕ) (df : TrendsFrame) : TrendsFrame :=
  let c := copyFrame df
  { c with
    swiggy := rollingMean window c.swiggy
    zomato := rollingMean window c.zomato
    blinkit := rollingMean window c.blinkit }

/-- A demonstration frame: ten weekly points with values 10,20,...,100 per brand. -/
def demoDf : TrendsFrame where
  date := List.range 10
  swiggy := [some 10, some 20, some 30, some 40, some 50,
             some 60, some 70, some 80, some 90, some 100]
  zomato := [some 10, some 20, some 30, some 40, some 50,
             some 60, some 70, some 80, some 90, some 100]
  blinkit := [some 10, some 20, some 30, some 40, some 50,
              some 60, some 70, some 80, some 90, some 100]

/-! ### Correlation stage -/

/-- The pairwise-complete rows of two columns: the rows where both values are
present, as used by pandas `nancorr`. -/
def pairRows (xs ys : List Value) : List (ℚ × ℚ) :=
  (xs.zip ys).filterMap fun p =>
    match p.1, p.2 with
    | some a, some b => some (a, b)
    | _, _ => none

/-- Mean of the first coordinates of the complete rows. -/
def meanFst (ps : List (ℚ × ℚ)) : ℚ :=
  (ps.map Prod.fst).sum / (ps.length : ℚ)

/-- Mean of the second coordinates of the complete rows. -/
def meanSnd (ps : List (ℚ × ℚ)) : ℚ :=
  (ps.map Prod.snd).sum / (ps.length : ℚ)

/-- Centered sum of squares of the first column (pandas nancorr `ssqdmx`). -/
def ssqdmx (ps : List (ℚ × ℚ)) : ℚ :=
  (ps.map fun p => (p.1 - meanFst ps) ^ 2).sum

/-- Centered sum of squares of the second column (pandas nancorr `ssqdmy`). -/
def ssqdmy (ps : List (ℚ × ℚ)) : ℚ :=
  (ps.map fun p => (p.2 - meanSnd ps) ^ 2).sum

/-- Centered cross sum (pandas nancorr `covxy`). -/
def covxy (ps : List (ℚ × ℚ)) : ℚ :=
  (ps.map fun p => (p.1 - meanFst ps) * (p.2 - meanSnd ps)).sum

/-- One entry of `DataFrame.corr()` (pandas `nancorr`, method pearson): over
the pairwise-complete rows the value is `covxy / sqrt(ssqdmx * ssqdmy)`, and
NaN (here `none`) when the divisor is zero; zero or one complete rows give
zero centered sums, so the `nobs < minp` NaN case is subsumed. -/
noncomputable def pearson (xs ys : List Value) : Option ℝ :=
  if ssqdmx (pairRows xs ys) = 0 ∨ ssqdmy (pairRows xs ys) = 0 then none
  else some ((covxy (pairRows xs ys) : ℝ) /
    Real.sqrt ((ssqdmx (pairRows xs ys) : ℝ) * (ssqdmy (pairRows xs ys) : ℝ)))

/-- Line 246: `corr = df[["Swiggy","Zomato","Blinkit"]].corr()`. -/
noncomputable def corr (df : TrendsFrame) : Brand → Brand → Option ℝ :=
  fun a b => pearson (df.col a) (df.col b)

/-- A frame whose Swiggy column is constant (zero variance) while the other
two columns vary. -/
def constDf : TrendsFrame where
  date := [0, 1, 2]
  swiggy := [some 50, some 50, some 50]
  zomato := [some 40, some 95, some 60]
  blinkit := [some 20, some 30, some 100]

/-- A frame where Swiggy is exactly 2 * Zomato + 3 but Zomato is constant. -/
def affineConstDf : TrendsFrame where
  date := [0, 1]
  swiggy := [some 103, some 103]
  zomato := [some 50, some 50]
  blinkit := [some 0, some 0]

/-- A frame where Swiggy is exactly 2 * Zomato + 3 and Zomato varies. -/
def affineDf : TrendsFrame where
  date := [0, 1]
  swiggy := [some 23, some 43]
  zomato := [some 10, some 20]
  blinkit := [some 5, some 7]

/-! ### Regional table, ingestion fallback and page dispatch -/

/-- One row of the per-state table `geo_df`. -/
structure RegionRow where
  state : String
  swiggy : ℚ
  zomato : ℚ
  blinkit : ℚ
  deriving DecidableEq

/-- Column selection on a region row. -/
def RegionRow.val (r : RegionRow) : Brand → ℚ
  | Brand.Swiggy => r.swiggy
  | Brand.Zomato => r.zomato
  | Brand.Blinkit => r.blinkit

/-- The per-state table `geo_df`, one row per state. -/
abbrev GeoFrame := List RegionRow

/-- Line 189: `geo_sorted = geo_df.sort_values(by=app_choice, ascending=False)`,
a new table holding the rows in descending order of the chosen brand. -/
def sort_values_desc (app_choice : Brand) (geo_df : GeoFrame) : GeoFrame :=
  geo_df.insertionSort fun r₁ r₂ => r₂.val app_choice ≤ r₁.val app_choice

/-- The failure of the ingestion adapter (any exception from `load_trends`). -/
inductive FetchError where
  | providerUnavailable
  deriving DecidableEq

/-- Lines 107-113: the dummy interest table substituted on fetch failure;
`rand` stands for the `np.random.randint` draws. -/
def dummyDf (rand : Brand → ℕ → ℚ) : TrendsFrame where
  date := List.range 250
  swiggy := (List.range 250).map fun i => some (rand Brand.Swiggy i)
  zomato := (List.range 250).map fun i => some (rand Brand.Zomato i)
  blinkit := (List.range 250).map fun i => some (rand Brand.Blinkit i)

/-- Lines 114-119: the dummy per-state table substituted on fetch failure. -/
def dummyGeo : GeoFrame :=
  [⟨"Delhi", 70, 65, 85⟩, ⟨"Karnataka", 55, 70, 40⟩,
   ⟨"Maharashtra", 60, 75, 50⟩, ⟨"Tamil Nadu", 80, 60, 30⟩,
   ⟨"Uttar Pradesh", 50, 55, 25⟩]

/-- The outcome of the load section: the two tables that the rest of the
script uses and whether the warning banner was shown. -/
structure LoadResult where
  df : TrendsFrame
  geo_df : GeoFrame
  warned : Bool

/-- Lines 103-119: `try: df, geo_df = load_trends() except: st.warning(...)`
followed by the dummy-data substitution. -/
def loadData (fetched : Except FetchError (TrendsFrame × GeoFrame))
    (rand : Brand → ℕ → ℚ) : LoadResult :=
  match fetched with
  | Except.ok (d, g) => ⟨d, g, false⟩
  | Except.error _ => ⟨dummyDf rand, dummyGeo, true⟩

/-- The sidebar pages of the dashboard (lines 125-135). -/
inductive Page where
  | overview
  | trendsOverTime
  | regionalInsights
  | searchIntent
  | statsCorrelations
  | challengesStory

/-- The script variables: the two raw tables and the derived tables that the
data pages assign. -/
structure Env where
  df : TrendsFrame
  geo_df : GeoFrame
  smoothed : Option TrendsFrame
  corrMat : Option (Brand → Brand → Option ℝ)
  geo_sorted : Option GeoFrame

/-- One page render (the if/elif dispatch over pages, lines 142-271): each
data page computes its derived table from the raw tables; the other pages
only read. -/
noncomputable def runPage (page : Page) (window : ℕ) (app_choice : Brand)
    (e : Env) : Env :=
  match page with
  | Page.trendsOverTime => { e with smoothed := some (df_smooth window e.df) }
  | Page.regionalInsights =>
      { e with geo_sorted := some (sort_values_desc app_choice e.geo_df) }
  | Page.statsCorrelations => { e with corrMat := some (corr e.df) }
  | _ => e

/-- A concrete environment built from the constant-column frame and the dummy
regional table. -/
def demoEnv : Env := ⟨constDf, dummyGeo, none, none, none⟩

/-! ### Basic lemmas about the smoothing stage -/

theorem length_rollingMean (w : ℕ) (xs : List Value) :
    (rollingMean w xs).length = xs.length := by
  simp [rollingMean]

theorem rollingMean_getElem? (w : ℕ) (xs : List Value) (i : ℕ) (hi : i < xs.length) :
    (rollingMean w xs)[i]? =
      some (if (validVals (windowAt w xs i)).length = w
            then some ((validVals (windowAt w xs i)).sum / (w : ℚ)) else none) := by
  simp [rollingMean, List.getElem?_map, List.getElem?_range, hi]

theorem validVals_length_le (win : List Value) :
    (validVals win).length ≤ win.length :=
  List.length_filterMap_le _ _

theorem validVals_length_eq (win : List Value) (h : ∀ v ∈ win, v.isSome) :
    (validVals win).length = win.length := by
  induction win with
  | nil => rfl
  | cons x t ih =>
    have hx : x.isSome := h x (List.mem_cons_self x t)
    obtain ⟨a, rfl⟩ := Option.isSome_iff_exists.mp hx
    have ht : ∀ v ∈ t, v.isSome := fun v hv => h v (List.mem_cons_of_mem _ hv)
    have := ih ht
    simp only [validVals, List.filterMap_cons, id, List.length_cons] at this ⊢
    omega

theorem validVals_length_lt (win : List Value) (h : none ∈ win) :
    (validVals win).length < win.length := by
  induction win with
  | nil => cases h
  | cons x t ih =>
    rcases List.mem_cons.mp h with hx | ht
    · subst hx
      simp only [validVals, List.filterMap_cons, id]
      exact Nat.lt_succ_of_le (validVals_length_le t)
    · cases x with
      | none =>
        simp only [validVals, List.filterMap_cons, id]
        exact Nat.lt_succ_of_le (validVals_length_le t)
      | some a =>
        simp only [validVals, List.filterMap_cons, id, List.length_cons]
        exact Nat.succ_lt_succ (ih ht)

theorem windowAt_length (w : ℕ) (xs : List Value) (i : ℕ) (hi : i < xs.length) :
    (windowAt w xs i).length = (i + 1) - (i + 1 - w) := by
  simp [windowAt]
  omega

theorem df_smooth_col (window : ℕ) (df : TrendsFrame) (b : Brand) :
    (df_smooth window df).col b = rollingMean window (df.col b) := by
  cases b <;> rfl

theorem df_smooth_date (window : ℕ) (df : TrendsFrame) :
    (df_smooth window df).date = df.date := rfl

theorem rollingMean_one (xs : List Value) : rollingMean 1 xs = xs := by
  apply List.ext_getElem?
  intro i
  by_cases hi : i < xs.length
  · have hwin : windowAt 1 xs i = [xs[i]] := by
      simpa [windowAt] using List.drop_take_succ_eq_cons_getElem xs i hi
    rw [rollingMean_getElem? 1 xs i hi, hwin, List.getElem?_eq_getElem hi]
    cases h : xs[i] with
    | none => simp [validVals, h]
    | some a => simp [validVals, h]
  · have h₁ : (rollingMean 1 xs)[i]? = none := by
      rw [List.getElem?_eq_none]
      rw [length_rollingMean]
      omega
    have h₂ : xs[i]? = none := by
      rw [List.getElem?_eq_none]
      omega
    rw [h₁, h₂]

/-- C1: smoothing keeps the date axis and the column length; a row whose
trailing window of `w` rows is entirely present holds the arithmetic mean of
that window, the first `w - 1` rows are missing, and on the concrete series
10,20,...,100 with window 3 the output starts with two missing entries, then
20, and ends with 90. -/
theorem smoothing_trailing_mean_spec (df : TrendsFrame) (b : Brand) (w : ℕ)
    (hw : 1 ≤ w) :
    (df_smooth w df).date = df.date
    ∧ ((df_smooth w df).col b).length = (df.col b).length
    ∧ (∀ i, i < (df.col b).length → w - 1 ≤ i →
        (∀ v ∈ windowAt w (df.col b) i, v.isSome) →
        ((df_smooth w df).col b)[i]? =
          some (some ((validVals (windowAt w (df.col b) i)).sum / (w : ℚ))))
    ∧ (∀ i, i < (df.col b).length → i < w - 1 →
        ((df_smooth w df).col b)[i]? = some none)
    ∧ rollingMean 3
        [some 10, some 20, some 30, some 40, some 50,
         some 60, some 70, some 80, some 90, some 100]
      = [none, none, some 20, some 30, some 40, some 50,
         some 60, some 70, some 80, some 90] := by
  refine ⟨rfl, ?_, ?_, ?_, ?_⟩
  · rw [df_smooth_col, length_rollingMean]
  · intro i hi hfull hall
    have hwl : (windowAt w (df.col b) i).length = w := by
      rw [windowAt_length w _ i hi]
      omega
    have hv : (validVals (windowAt w (df.col b) i)).length = w := by
      rw [validVals_length_eq _ hall, hwl]
    rw [df_smooth_col, rollingMean_getElem? w _ i hi, if_pos hv]
  · intro i hi hshort
    have hwl : (windowAt w (df.col b) i).length = i + 1 := by
      rw [windowAt_length w _ i hi]
      omega
    have hv : (validVals (windowAt w (df.col b) i)).length ≠ w := by
      have := validVals_length_le (windowAt w (df.col b) i)
      omega
    rw [df_smooth_col, rollingMean_getElem? w _ i hi, if_neg hv]
  · simp [rollingMean, windowAt, validVals, List.range_succ]
    norm_num

theorem smoothing_trailing_mean_spec_witness :
    ((df_smooth 3 demoDf).col Brand.Swiggy)[2]? =
      some (some ((validVals (windowAt 3 (demoDf.col Brand.Swiggy) 2)).sum / (3 : ℚ)))
    ∧ ((df_smooth 3 demoDf).col Brand.Swiggy)[0]? = some none :=
  ⟨(smoothing_trailing_mean_spec demoDf Brand.Swiggy 3 (by decide)).2.2.1 2
      (by decide) (by decide) (by decide),
   (smoothing_trailing_mean_spec demoDf Brand.Swiggy 3 (by decide)).2.2.2.1 0
      (by decide) (by decide)⟩

/-- C2: smoothing with window 1 is the identity on the whole frame. -/
theorem smoothing_window_one_identity (df : TrendsFrame) : df_smooth 1 df = df := by
  cases df
  simp [df_smooth, copyFrame, rollingMean_one]

/-- C3: a missing value anywhere in the trailing window makes the smoothed
entry missing; a fully present full window yields the plain mean. -/
theorem smoothing_missing_propagates (xs : List Value) (w i : ℕ) (hw : 1 ≤ w)
    (hi : i < xs.length) :
    (none ∈ windowAt w xs i → (rollingMean w xs)[i]? = some none)
    ∧ (w - 1 ≤ i → (∀ v ∈ windowAt w xs i, v.isSome) →
        (rollingMean w xs)[i]? =
          some (some ((validVals (windowAt w xs i)).sum / (w : ℚ)))) := by
  constructor
  · intro hmem
    have hlt := validVals_length_lt _ hmem
    have hle : (windowAt w xs i).length ≤ w := by
      rw [windowAt_length w xs i hi]
      omega
    have hv : (validVals (windowAt w xs i)).length ≠ w := by omega
    rw [rollingMean_getElem? w xs i hi, if_neg hv]
  · intro hfull hall
    have hwl : (windowAt w xs i).length = w := by
      rw [windowAt_length w xs i hi]
      omega
    have hv : (validVals (windowAt w xs i)).length = w := by
      rw [validVals_length_eq _ hall, hwl]
    rw [rollingMean_getElem? w xs i hi, if_pos hv]

theorem smoothing_missing_propagates_witness :
    (rollingMean 2 [some 1, none, some 3, some 4])[1]? = some none :=
  (smoothing_missing_propagates [some 1, none, some 3, some 4] 2 1
      (by decide) (by decide)).1 (by decide)

/-- C8: a window larger than the series length yields an all-missing result
of the same length; there is no error case. -/
theorem smoothing_window_exceeds_length (xs : List Value) (w : ℕ)
    (hw : xs.length < w) :
    rollingMean w xs = List.replicate xs.length none := by
  apply List.ext_getElem?
  intro i
  by_cases hi : i < xs.length
  · have hle : (windowAt w xs i).length ≤ xs.length := by
      rw [windowAt_length w xs i hi]
      omega
    have hv : (validVals (windowAt w xs i)).length ≠ w := by
      have := validVals_length_le (windowAt w xs i)
      omega
    rw [rollingMean_getElem? w xs i hi, if_neg hv, List.getElem?_replicate]
    simp [hi]
  · have h₁ : (rollingMean w xs)[i]? = none := by
      rw [List.getElem?_eq_none]
      rw [length_rollingMean]
      omega
    have h₂ : (List.replicate xs.length (none : Value))[i]? = none := by
      rw [List.getElem?_eq_none]
      rw [List.length_replicate]
      omega
    rw [h₁, h₂]

theorem smoothing_window_exceeds_length_witness :
    rollingMean 5 [some 1, some 2] = List.replicate 2 none :=
  smoothing_window_exceeds_length [some 1, some 2] 5 (by decide)

/-! ### Lemmas about the correlation stage -/

theorem pairRows_cons_some_some (a b : ℚ) (xt yt : List Value) :
    pairRows (some a :: xt) (some b :: yt) = (a, b) :: pairRows xt yt := by
  simp [pairRows, List.zip_cons_cons, List.filterMap_cons]

theorem pairRows_cons_none_left (y : Value) (xt yt : List Value) :
    pairRows (none :: xt) (y :: yt) = pairRows xt yt := by
  cases y <;> simp [pairRows, List.zip_cons_cons, List.filterMap_cons]

theorem pairRows_cons_none_right (x : Value) (xt yt : List Value) :
    pairRows (x :: xt) (none :: yt) = pairRows xt yt := by
  cases x <;> simp [pairRows, List.zip_cons_cons, List.filterMap_cons]

theorem pairRows_swap (xs ys : List Value) :
    pairRows ys xs = (pairRows xs ys).map Prod.swap := by
  induction xs generalizing ys with
  | nil => cases ys <;> rfl
  | cons x xt ih =>
    cases ys with
    | nil => rfl
    | cons y yt =>
      cases x with
      | none =>
        rw [pairRows_cons_none_left, pairRows_cons_none_right, ih yt]
      | some a =>
        cases y with
        | none =>
          rw [pairRows_cons_none_left, pairRows_cons_none_right, ih yt]
        | some b =>
          rw [pairRows_cons_some_some, pairRows_cons_some_some, List.map_cons, ih yt]
          rfl

theorem meanFst_map_swap (ps : List (ℚ × ℚ)) :
    meanFst (ps.map Prod.swap) = meanSnd ps := by
  simp [meanFst, meanSnd, List.map_map, Function.comp_def]

theorem meanSnd_map_swap (ps : List (ℚ × ℚ)) :
    meanSnd (ps.map Prod.swap) = meanFst ps := by
  simp [meanFst, meanSnd, List.map_map, Function.comp_def]

theorem ssqdmx_map_swap (ps : List (ℚ × ℚ)) :
    ssqdmx (ps.map Prod.swap) = ssqdmy ps := by
  unfold ssqdmx ssqdmy
  rw [meanFst_map_swap, List.map_map]
  simp [Function.comp_def]

theorem ssqdmy_map_swap (ps : List (ℚ × ℚ)) :
    ssqdmy (ps.map Prod.swap) = ssqdmx ps := by
  unfold ssqdmx ssqdmy
  rw [meanSnd_map_swap, List.map_map]
  simp [Function.comp_def]

theorem covxy_map_swap (ps : List (ℚ × ℚ)) :
    covxy (ps.map Prod.swap) = covxy ps := by
  unfold covxy
  rw [meanFst_map_swap, meanSnd_map_swap, List.map_map]
  simp only [Function.comp_def, Prod.fst_swap, Prod.snd_swap]
  exact congrArg List.sum (List.map_congr_left fun p _ => mul_comm _ _)

theorem pearson_comm (xs ys : List Value) : pearson ys xs = pearson xs ys := by
  unfold pearson
  rw [pairRows_swap xs ys, ssqdmx_map_swap, ssqdmy_map_swap, covxy_map_swap]
  by_cases h : ssqdmx (pairRows xs ys) = 0 ∨ ssqdmy (pairRows xs ys) = 0
  · rw [if_pos h.symm, if_pos h]
  · rw [if_neg (fun hc => h hc.symm), if_neg h,
      mul_comm ((ssqdmy (pairRows xs ys) : ℝ)) ((ssqdmx (pairRows xs ys) : ℝ))]

theorem pairRows_self (xs : List Value) : ∀ p ∈ pairRows xs xs, p.1 = p.2 := by
  induction xs with
  | nil => intro p hp; cases hp
  | cons x xt ih =>
    intro p hp
    cases x with
    | none =>
      rw [pairRows_cons_none_left] at hp
      exact ih p hp
    | some a =>
      rw [pairRows_cons_some_some] at hp
      rcases List.mem_cons.mp hp with h | h
      · rw [h]
      · exact ih p h

theorem meanSnd_of_diag (ps : List (ℚ × ℚ)) (h : ∀ p ∈ ps, p.1 = p.2) :
    meanSnd ps = meanFst ps := by
  unfold meanFst meanSnd
  rw [List.map_congr_left fun p hp => (h p hp).symm]

theorem ssqdmy_of_diag (ps : List (ℚ × ℚ)) (h : ∀ p ∈ ps, p.1 = p.2) :
    ssqdmy ps = ssqdmx ps := by
  unfold ssqdmx ssqdmy
  rw [meanSnd_of_diag ps h]
  exact congrArg List.sum (List.map_congr_left fun p hp => by rw [h p hp])

theorem covxy_of_diag (ps : List (ℚ × ℚ)) (h : ∀ p ∈ ps, p.1 = p.2) :
    covxy ps = ssqdmx ps := by
  unfold covxy ssqdmx
  rw [meanSnd_of_diag ps h]
  exact congrArg List.sum (List.map_congr_left fun p hp => by rw [← h p hp]; ring)

theorem ssqdmx_nonneg (ps : List (ℚ × ℚ)) : 0 ≤ ssqdmx ps := by
  apply List.sum_nonneg
  intro x hx
  obtain ⟨p, _, rfl⟩ := List.mem_map.mp hx
  exact sq_nonneg _

theorem pearson_diag_of_ne_zero (xs : List Value)
    (h : ssqdmx (pairRows xs xs) ≠ 0) : pearson xs xs = some 1 := by
  unfold pearson
  have hy := ssqdmy_of_diag _ (pairRows_self xs)
  have hc := covxy_of_diag _ (pairRows_self xs)
  rw [hy, hc, if_neg (by tauto)]
  have hpos : 0 < ssqdmx (pairRows xs xs) :=
    lt_of_le_of_ne (ssqdmx_nonneg _) (Ne.symm h)
  have hsq : ((ssqdmx (pairRows xs xs) : ℝ)) * ((ssqdmx (pairRows xs xs) : ℝ))
      = ((ssqdmx (pairRows xs xs) : ℝ)) ^ 2 := by ring
  rw [hsq, Real.sqrt_sq (by exact_mod_cast hpos.le), div_self (by exact_mod_cast hpos.ne')]

theorem pearson_diag_of_zero (xs : List Value)
    (h : ssqdmx (pairRows xs xs) = 0) : pearson xs xs = none := by
  unfold pearson
  rw [if_pos (Or.inl h)]

theorem pairRows_fst_mem (xs ys : List Value) :
    ∀ p ∈ pairRows xs ys, some p.1 ∈ xs := by
  induction xs generalizing ys with
  | nil => intro p hp; cases ys <;> cases hp
  | cons x xt ih =>
    intro p hp
    cases ys with
    | nil => cases hp
    | cons y yt =>
      cases x with
      | none =>
        rw [pairRows_cons_none_left] at hp
        exact List.mem_cons_of_mem _ (ih yt p hp)
      | some a =>
        cases y with
        | none =>
          rw [pairRows_cons_none_right] at hp
          exact List.mem_cons_of_mem _ (ih yt p hp)
        | some b =>
          rw [pairRows_cons_some_some] at hp
          rcases List.mem_cons.mp hp with h | h
          · rw [h]; exact List.mem_cons_self _ _
          · exact List.mem_cons_of_mem _ (ih yt p h)

theorem ssqdmx_of_const (ps : List (ℚ × ℚ)) (q : ℚ) (h : ∀ p ∈ ps, p.1 = q) :
    ssqdmx ps = 0 := by
  cases hps : ps with
  | nil => rfl
  | cons p₀ pt =>
    rw [← hps]
    have hmap : ps.map Prod.fst = List.replicate ps.length q := by
      rw [List.eq_replicate_iff]
      refine ⟨by simp, ?_⟩
      intro b hb
      obtain ⟨p, hp, rfl⟩ := List.mem_map.mp hb
      exact h p hp
    have hlen : (ps.length : ℚ) ≠ 0 := by
      rw [hps]
      simp only [List.length_cons, Nat.cast_add, Nat.cast_one]
      positivity
    have hmean : meanFst ps = q := by
      unfold meanFst
      rw [hmap, List.sum_replicate, nsmul_eq_mul, mul_comm, mul_div_assoc,
        div_self hlen, mul_one]
    unfold ssqdmx
    rw [List.map_congr_left fun p hp => by rw [hmean, h p hp, sub_self q]]
    simp

theorem pearson_const_fst (xs ys : List Value) (q : ℚ)
    (h : ∀ v ∈ xs, v = some q) : pearson xs ys = none := by
  unfold pearson
  have hc : ∀ p ∈ pairRows xs ys, p.1 = q := by
    intro p hp
    have := h (some p.1) (pairRows_fst_mem xs ys p hp)
    exact Option.some.inj this
  rw [if_pos (Or.inl (ssqdmx_of_const _ q hc))]

/-- C4 counterexample: on a frame whose Swiggy column is constant, the
diagonal correlation entry is the flagged missing value (NaN), not 1.0, so
the claim that every diagonal entry equals 1.0 even at zero variance fails. -/
theorem corr_diag_zero_variance_counterexample :
    corr constDf Brand.Swiggy Brand.Swiggy ≠ some (1 : ℝ) := by
  have h : corr constDf Brand.Swiggy Brand.Swiggy = none :=
    pearson_const_fst constDf.swiggy constDf.swiggy 50 (by decide)
  rw [h]
  exact fun hc => Option.noConfusion hc

/-- C4 (amended): the correlation matrix is exactly symmetric; a diagonal
entry equals 1.0 when the centered sum of squares of the column over its
present values is nonzero, and is the flagged missing value (NaN) when that
sum is zero (zero variance). -/
theorem corr_symmetric_diag (df : TrendsFrame) (a b : Brand) :
    corr df a b = corr df b a
    ∧ (ssqdmx (pairRows (df.col a) (df.col a)) ≠ 0 → corr df a a = some 1)
    ∧ (ssqdmx (pairRows (df.col a) (df.col a)) = 0 → corr df a a = none) :=
  ⟨pearson_comm (df.col b) (df.col a),
   fun h => pearson_diag_of_ne_zero (df.col a) h,
   fun h => pearson_diag_of_zero (df.col a) h⟩

theorem corr_symmetric_diag_witness :
    corr constDf Brand.Zomato Brand.Blinkit = corr constDf Brand.Blinkit Brand.Zomato
    ∧ corr constDf Brand.Zomato Brand.Zomato = some 1 :=
  ⟨(corr_symmetric_diag constDf Brand.Zomato Brand.Blinkit).1,
   (corr_symmetric_diag constDf Brand.Zomato Brand.Blinkit).2.1 (by
      show ssqdmx (pairRows constDf.zomato constDf.zomato) ≠ 0
      norm_num [constDf, pairRows, ssqdmx, meanFst, List.zip_cons_cons,
        List.filterMap_cons])⟩

/-- C5: a constant brand column makes each of its off-diagonal correlation
entries the flagged missing value (NaN), which is neither 0 nor 1, and the
computation is total (no arithmetic error). -/
theorem corr_const_column_flagged (df : TrendsFrame) (c other : Brand) (q : ℚ)
    (hconst : ∀ v ∈ df.col c, v = some q) :
    corr df c other = none
    ∧ corr df c other ≠ some 0
    ∧ corr df c other ≠ some 1 := by
  have h : corr df c other = none := pearson_const_fst _ _ q hconst
  refine ⟨h, ?_, ?_⟩ <;> rw [h] <;> exact fun hc => Option.noConfusion hc

theorem corr_const_column_flagged_witness :
    corr constDf Brand.Swiggy Brand.Zomato = none :=
  (corr_const_column_flagged constDf Brand.Swiggy Brand.Zomato 50 (by decide)).1

/-! ### Perfect affine dependence between two columns -/

theorem zip_map_self (f : ℚ → ℚ) (bs : List ℚ) :
    (bs.map f).zip bs = bs.map fun x => (f x, x) := by
  induction bs with
  | nil => rfl
  | cons x t ih => simp [List.zip_cons_cons, ih]

theorem pairRows_map_some (as bs : List ℚ) :
    pairRows (as.map some) (bs.map some) = as.zip bs := by
  induction as generalizing bs with
  | nil => cases bs <;> rfl
  | cons a tl ih =>
    cases bs with
    | nil => rfl
    | cons b bt =>
      rw [List.map_cons, List.map_cons, pairRows_cons_some_some, ih bt,
        List.zip_cons_cons]

theorem sum_map_affine (c d : ℚ) (l : List ℚ) :
    (l.map fun x => c * x + d).sum = c * l.sum + d * l.length := by
  induction l with
  | nil => simp
  | cons x t ih =>
    simp only [List.map_cons, List.sum_cons, ih, List.length_cons]
    push_cast
    ring

theorem meanSnd_affine (bs : List ℚ) :
    meanSnd (bs.map fun x => (2 * x + 3, x)) = bs.sum / (bs.length : ℚ) := by
  unfold meanSnd
  rw [List.map_map]
  simp [Function.comp_def]

theorem meanFst_affine (bs : List ℚ) (hn : (bs.length : ℚ) ≠ 0) :
    meanFst (bs.map fun x => (2 * x + 3, x))
      = 2 * (bs.sum / (bs.length : ℚ)) + 3 := by
  unfold meanFst
  rw [List.map_map]
  simp only [Function.comp_def, List.length_map]
  rw [sum_map_affine]
  field_simp

theorem ssqdmy_affine (bs : List ℚ) :
    ssqdmy (bs.map fun x => (2 * x + 3, x))
      = (bs.map fun z => (z - bs.sum / (bs.length : ℚ)) ^ 2).sum := by
  unfold ssqdmy
  rw [meanSnd_affine, List.map_map]
  simp [Function.comp_def]

theorem ssqdmx_affine (bs : List ℚ) (hn : (bs.length : ℚ) ≠ 0) :
    ssqdmx (bs.map fun x => (2 * x + 3, x))
      = 4 * (bs.map fun z => (z - bs.sum / (bs.length : ℚ)) ^ 2).sum := by
  unfold ssqdmx
  rw [meanFst_affine bs hn, List.map_map, ← List.sum_map_mul_left]
  simp only [Function.comp_def]
  exact congrArg List.sum (List.map_congr_left fun z _ => by ring)

theorem covxy_affine (bs : List ℚ) (hn : (bs.length : ℚ) ≠ 0) :
    covxy (bs.map fun x => (2 * x + 3, x))
      = 2 * (bs.map fun z => (z - bs.sum / (bs.length : ℚ)) ^ 2).sum := by
  unfold covxy
  rw [meanFst_affine bs hn, meanSnd_affine, List.map_map, ← List.sum_map_mul_left]
  simp only [Function.comp_def]
  exact congrArg List.sum (List.map_congr_left fun z _ => by ring)

theorem sum_sq_dev_pos (bs : List ℚ) (x y : ℚ) (hx : x ∈ bs) (hy : y ∈ bs)
    (hxy : x ≠ y) :
    0 < (bs.map fun z => (z - bs.sum / (bs.length : ℚ)) ^ 2).sum := by
  have hnn : ∀ t ∈ bs.map fun z => (z - bs.sum / (bs.length : ℚ)) ^ 2, 0 ≤ t := by
    intro t ht
    obtain ⟨z, _, rfl⟩ := List.mem_map.mp ht
    exact sq_nonneg _
  rcases eq_or_lt_of_le (List.sum_nonneg hnn) with he | hlt
  · exfalso
    have hz : ∀ t ∈ bs.map fun z => (z - bs.sum / (bs.length : ℚ)) ^ 2, t = 0 :=
      fun t ht => List.all_zero_of_le_zero_le_of_sum_eq_zero hnn he.symm ht
    have hxm : x = bs.sum / (bs.length : ℚ) := by
      have := hz _ (List.mem_map_of_mem _ hx)
      have := sq_eq_zero_iff.mp this
      linarith
    have hym : y = bs.sum / (bs.length : ℚ) := by
      have := hz _ (List.mem_map_of_mem _ hy)
      have := sq_eq_zero_iff.mp this
      linarith
    exact hxy (hxm.trans hym.symm)
  · exact hlt

theorem pearson_affine (bs : List ℚ) (x y : ℚ) (hx : x ∈ bs) (hy : y ∈ bs)
    (hxy : x ≠ y) :
    pearson ((bs.map fun z => 2 * z + 3).map some) (bs.map some) = some 1 := by
  have hne : bs ≠ [] := fun h => by rw [h] at hx; cases hx
  have hn : (bs.length : ℚ) ≠ 0 := by
    cases bs with
    | nil => exact absurd rfl hne
    | cons b t =>
      simp only [List.length_cons, Nat.cast_add, Nat.cast_one]
      positivity
  have hrows : pairRows ((bs.map fun z => 2 * z + 3).map some) (bs.map some)
      = bs.map fun z => (2 * z + 3, z) := by
    rw [pairRows_map_some, zip_map_self]
  have hspos : 0 < (bs.map fun z => (z - bs.sum / (bs.length : ℚ)) ^ 2).sum :=
    sum_sq_dev_pos bs x y hx hy hxy
  unfold pearson
  rw [hrows, ssqdmx_affine bs hn, ssqdmy_affine bs, covxy_affine bs hn]
  have h4 : (4 : ℚ) * (bs.map fun z => (z - bs.sum / (bs.length : ℚ)) ^ 2).sum ≠ 0 := by
    nlinarith
  rw [if_neg (by push_neg; exact ⟨h4, hspos.ne'⟩)]
  congr 1
  have h2s : (0 : ℚ) < 2 * (bs.map fun z => (z - bs.sum / (bs.length : ℚ)) ^ 2).sum := by
    nlinarith
  have hsq : ((4 * (bs.map fun z => (z - bs.sum / (bs.length : ℚ)) ^ 2).sum : ℚ) : ℝ)
        * (((bs.map fun z => (z - bs.sum / (bs.length : ℚ)) ^ 2).sum : ℚ) : ℝ)
      = (((2 * (bs.map fun z => (z - bs.sum / (bs.length : ℚ)) ^ 2).sum : ℚ)) : ℝ) ^ 2 := by
    push_cast
    ring
  rw [hsq, Real.sqrt_sq (by exact_mod_cast h2s.le),
    div_self (by exact_mod_cast h2s.ne')]

/-- C6 counterexample: Swiggy equals 2 * Zomato + 3 pointwise with no missing
values, yet the correlation entry is the flagged missing value (NaN) rather
than 1.0, because the Zomato column is constant; the unrestricted claim
fails. -/
theorem corr_affine_counterexample :
    affineConstDf.col Brand.Swiggy
        = (([50, 50] : List ℚ).map fun z => 2 * z + 3).map some
    ∧ affineConstDf.col Brand.Zomato = ([50, 50] : List ℚ).map some
    ∧ corr affineConstDf Brand.Swiggy Brand.Zomato ≠ some 1 := by
  refine ⟨by norm_num [affineConstDf, TrendsFrame.col], rfl, ?_⟩
  have h : corr affineConstDf Brand.Swiggy Brand.Zomato = none :=
    pearson_const_fst _ _ 103 (by decide)
  rw [h]
  exact fun hc => Option.noConfusion hc

/-- C6 (amended): if the column of brand a equals 2 * (column of brand b) + 3
pointwise with no missing values, and the column of brand b takes at least two
distinct values, then the correlation entry is exactly 1. -/
theorem corr_affine_image_one (df : TrendsFrame) (a b : Brand) (bs : List ℚ)
    (x y : ℚ) (hx : x ∈ bs) (hy : y ∈ bs) (hxy : x ≠ y)
    (ha : df.col a = (bs.map fun z => 2 * z + 3).map some)
    (hb : df.col b = bs.map some) :
    corr df a b = some 1 := by
  show pearson (df.col a) (df.col b) = some 1
  rw [ha, hb]
  exact pearson_affine bs x y hx hy hxy

theorem corr_affine_image_one_witness :
    corr affineDf Brand.Swiggy Brand.Zomato = some 1 :=
  corr_affine_image_one affineDf Brand.Swiggy Brand.Zomato [10, 20] 10 20
    (by simp) (by simp) (by norm_num)
    (by norm_num [affineDf, TrendsFrame.col]) rfl


/-- C7: on a fetch failure the caller substitutes the placeholder tables:
the non-fatal warning is surfaced, the frame has all three brand columns
(length 250), the region table is non-empty, and the downstream smoothing and
correlation stages run on the placeholder through the same generic functions
with no special-casing and no failure path. -/
theorem fallback_substitutes_placeholder (rand : Brand → ℕ → ℚ) (e : FetchError)
    (w : ℕ) (a b : Brand) :
    (loadData (Except.error e) rand).warned = true
    ∧ (loadData (Except.error e) rand).geo_df ≠ []
    ∧ (∀ brand, ((loadData (Except.error e) rand).df.col brand).length = 250)
    ∧ (df_smooth w (loadData (Except.error e) rand).df).date
        = (loadData (Except.error e) rand).df.date
    ∧ ((df_smooth w (loadData (Except.error e) rand).df).col a).length
        = ((loadData (Except.error e) rand).df.col a).length
    ∧ corr (loadData (Except.error e) rand).df a b
        = corr (loadData (Except.error e) rand).df b a := by
  refine ⟨rfl, by simp [loadData, dummyGeo], ?_, df_smooth_date _ _, ?_,
    pearson_comm _ _⟩
  · intro brand
    cases brand <;> simp [loadData, dummyDf, TrendsFrame.col]
  · rw [df_smooth_col, length_rollingMean]

/-- C9: no page mutates the raw tables in place: after any page render the
raw series and region tables are unchanged, and each data page stores a new
derived table computed from them. -/
theorem pages_preserve_raw_tables (page : Page) (window : ℕ)
    (app_choice : Brand) (e : Env) :
    (runPage page window app_choice e).df = e.df
    ∧ (runPage page window app_choice e).geo_df = e.geo_df
    ∧ (runPage Page.trendsOverTime window app_choice e).smoothed
        = some (df_smooth window e.df)
    ∧ (runPage Page.regionalInsights window app_choice e).geo_sorted
        = some (sort_values_desc app_choice e.geo_df)
    ∧ (runPage Page.statsCorrelations window app_choice e).corrMat
        = some (corr e.df) := by
  refine ⟨?_, ?_, rfl, rfl, rfl⟩ <;> cases page <;> rfl

/-- C10: the correlation matrix is computed from the raw series only: two
runs over the same input that differ only in the smoothing-window selection
(both in 1..8) store the identical correlation table. -/
theorem corr_independent_of_window (e : Env) (app_choice : Brand) (w₁ w₂ : ℕ)
    (h₁ : 1 ≤ w₁ ∧ w₁ ≤ 8) (h₂ : 1 ≤ w₂ ∧ w₂ ≤ 8) :
    (runPage Page.statsCorrelations w₁ app_choice
        (runPage Page.trendsOverTime w₁ app_choice e)).corrMat
      = (runPage Page.statsCorrelations w₂ app_choice
        (runPage Page.trendsOverTime w₂ app_choice e)).corrMat :=
  rfl

theorem corr_independent_of_window_witness :
    (runPage Page.statsCorrelations 1 Brand.Swiggy
        (runPage Page.trendsOverTime 1 Brand.Swiggy demoEnv)).corrMat
      = (runPage Page.statsCorrelations 8 Brand.Swiggy
        (runPage Page.trendsOverTime 8 Brand.Swiggy demoEnv)).corrMat :=
  corr_independent_of_window demoEnv Brand.Swiggy 1 8
    ⟨by decide, by decide⟩ ⟨by decide, by decide⟩

end DeliveryTrends
